import Mathlib

/-!
Verification of the walkie-talkie session orchestration server.

Shallow embedding of the Python sources under src/server/src:
utils/safety.py (PathSandbox), claude/tool_executor.py (edit_file, grep),
claude/client.py (stream_response tool-use loop), ws/handler.py
(connection handler relay, speak-tag extractor, audio_end), and
ws/session.py (history trimming, token estimate).

Machine strings are modelled as Lean String or List Char; fallible
operations return Except or explicit result structures.  Interruption
(the session.interrupted flag, which is monotone during one response:
it is reset only before a response starts and can only flip to true
while one runs) is modelled as an optional threshold over the ordered
sequence of cooperative interrupt checks: with threshold some n, the
flag reads true at every check numbered n or later.
-/

/-! ## Path sandbox (src/server/src/utils/safety.py, PathSandbox.resolve)

A filesystem path is modelled by whether it is absolute plus its list
of components; pathlib drops empty and single-dot components when
parsing.  Canonicalisation by Path.resolve (symlinks and dot-dot) is
filesystem state, modelled as an abstract function on component lists.
Path.relative_to is lexical: it succeeds exactly when the base is a
component-wise prefix. -/

structure PPath where
  absolute : Bool
  parts : List String
deriving DecidableEq

/-- Split a character list into the chunks between slashes. -/
def splitSlashAux : List Char → List Char → List String
  | [], cur => [String.mk cur.reverse]
  | c :: rest, cur =>
    if c = '/' then String.mk cur.reverse :: splitSlashAux rest []
    else splitSlashAux rest (c :: cur)

def startsWithSlash : List Char → Bool
  | '/' :: _ => true
  | _ => false

def parsePath (s : String) : PPath :=
  { absolute := startsWithSlash s.data
    parts := (splitSlashAux s.data []).filter (fun c => c ≠ "" ∧ c ≠ ".") }

/-- The workspace-relative component list the code joins to the root:
an absolute input whose components start with the root components is
taken relative to the root; any other absolute input has its leading
separators stripped, which reparses to the same component list; a
relative input is used as is. -/
def sandboxRel (root : List String) (path : String) : List String :=
  let p := parsePath path
  if p.absolute then
    if root.isPrefixOf p.parts then p.parts.drop root.length
    else p.parts
  else p.parts

/-- The canonicalised candidate, (self.root / p).resolve(). -/
def sandboxJoined (canon : List String → List String) (root : List String)
    (path : String) : List String :=
  canon (root ++ sandboxRel root path)

/-- PathSandbox.resolve: canonicalise the joined path, then require the
result to still be lexically within the root, else raise ValueError. -/
def sandboxResolve (canon : List String → List String) (root : List String)
    (path : String) : Except String (List String) :=
  let resolved := sandboxJoined canon root path
  if root.isPrefixOf resolved then Except.ok resolved
  else Except.error ("Path escapes sandbox: " ++ path)

/-! ## edit_file (src/server/src/claude/tool_executor.py, _tool_edit_file)

File text is a list of characters.  pyCount is Python str.count
(non-overlapping, left to right, len+1 for the empty pattern) and
pyReplaceFirst is str.replace(old, new, 1). -/

def countAuxF (old : List Char) : Nat → List Char → Nat
  | 0, _ => 0
  | _ + 1, [] => 0
  | fuel + 1, c :: rest =>
    if old.isPrefixOf (c :: rest) ∧ old ≠ [] then
      1 + countAuxF old fuel (rest.drop (old.length - 1))
    else
      countAuxF old fuel rest

/-- Each scan step consumes at least one character, so text.length fuel
always suffices. -/
def pyCount (text old : List Char) : Nat :=
  if old = [] then text.length + 1 else countAuxF old text.length text

def replaceFirstAux (old new : List Char) : List Char → List Char
  | [] => []
  | c :: rest =>
    if old.isPrefixOf (c :: rest) then new ++ rest.drop (old.length - 1)
    else c :: replaceFirstAux old new rest

def pyReplaceFirst (text old new : List Char) : List Char :=
  if old = [] then new ++ text else replaceFirstAux old new text

structure ToolRes where
  success : Bool
  output : String
deriving DecidableEq

def notFoundMsg : String := "old_text not found in file"

/-- The exact source literal: the separator between "times" and "must"
is the three characters U+00E2 U+20AC U+201D (a double-encoded em
dash), not an em dash. -/
def foundTimesMsg (n : Nat) : String :=
  "old_text found " ++ toString n ++ " times â€” must be unique"

/-- _tool_edit_file on an existing file whose text is given; the second
component is the file content after the call (write_text only happens
in the success branch). -/
def editFile (text old new : List Char) : ToolRes × List Char :=
  let count := pyCount text old
  if count = 0 then (⟨false, notFoundMsg⟩, text)
  else if 1 < count then (⟨false, foundTimesMsg count⟩, text)
  else (⟨true, "Edit applied"⟩, pyReplaceFirst text old new)

/-! ## Outbound websocket frames (src/server/src/ws/protocol.py as used
by handler.py) -/

inductive Frame where
  | responseDelta (text : String)
  | toolUse (id name input : String)
  | toolResult (id name : String) (success : Bool) (output : String)
  | responseEnd
  | error (message code : String)
  | transcription (text : String)
deriving DecidableEq

/-! ## audio_end handling (src/server/src/ws/handler.py, _handle_audio_end)

The buffered audio is a byte list; the optional STT engine is a
function from the audio to Except Unit String, error standing for a
raised exception.  The Bool result records whether the text was passed
on to _handle_user_input. -/

def sttUnavailableFrame : Frame := Frame.error "STT not available" "stt_unavailable"

def handleAudioEnd (audio : List Nat) (stt : Option (List Nat → Except Unit String)) :
    List Frame × Bool :=
  if audio = [] ∨ stt.isNone then
    ((if stt.isNone then [sttUnavailableFrame] else []), false)
  else
    match stt with
    | none => ([], false)
    | some f =>
      match f audio with
      | Except.error _ => ([Frame.error "Transcription failed" "stt_error"], false)
      | Except.ok text =>
        if text.trim = "" then ([], false)
        else ([Frame.transcription text], true)

/-! ## grep (src/server/src/claude/tool_executor.py, _tool_grep)

The regex is abstracted as a line predicate; the files produced by
search_path.glob are given as a list of entries carrying the path
components relative to the sandbox root and the file line list (read
text split into lines).  A candidate file absolute path has components
rootParts ++ relParts, which is what fpath.parts iterates over (minus
the leading "/" anchor, which never starts with a dot). -/

structure FileEnt where
  relParts : List String
  lines : List (List Char)

def relChars (f : FileEnt) : List Char :=
  (String.intercalate "/" f.relParts).data

def natChars (n : Nat) : List Char := (toString n).data

/-- One _search_file call: hits are "rel:lineno: line", line numbers
from 1. -/
def searchLines (m : List Char → Bool) (rel : List Char) :
    List (List Char) → Nat → List (List Char)
  | [], _ => []
  | line :: rest, i =>
    if m line then
      (rel ++ ':' :: natChars i ++ ':' :: ' ' :: line) :: searchLines m rel rest (i + 1)
    else searchLines m rel rest (i + 1)

def searchFile (m : List Char → Bool) (f : FileEnt) : List (List Char) :=
  searchLines m (relChars f) f.lines 1

def maxResults : Nat := 200

/-- Python part.startswith("."): the first character is a dot. -/
def startsWithDot (s : String) : Bool :=
  match s.data with
  | c :: _ => c = '.'
  | [] => false

/-- Directory walk: skip any file with a dot-prefixed component
anywhere in its absolute path, extend results with the file hits, stop
once max_results is reached. -/
def grepDirAux (m : List Char → Bool) (root : List String) :
    List FileEnt → List (List Char) → List (List Char)
  | [], acc => acc
  | f :: rest, acc =>
    if (root ++ f.relParts).any (fun part => startsWithDot part) then
      grepDirAux m root rest acc
    else
      let acc2 := acc ++ searchFile m f
      if maxResults ≤ acc2.length then acc2 else grepDirAux m root rest acc2

def noMatchesMsg : List Char := "No matches found".data

def joinLines : List (List Char) → List Char
  | [] => []
  | l :: rest => if rest = [] then l else l ++ '\n' :: joinLines rest

def grepSuffix (n : Nat) : List Char :=
  '\n' :: "... (".data ++ natChars n ++ " total matches)".data

def grepOutput (results : List (List Char)) : Bool × List Char :=
  if results = [] then (true, noMatchesMsg)
  else
    let out := joinLines (results.take maxResults)
    (true, if maxResults < results.length then out ++ grepSuffix results.length else out)

/-- grep when the given path resolves to a directory (or is absent). -/
def grepDir (m : List Char → Bool) (root : List String) (files : List FileEnt) :
    Bool × List Char :=
  grepOutput (grepDirAux m root files [])

/-- grep when the given path resolves to a file: _search_file is called
directly, with no dot-segment check. -/
def grepFile (m : List Char → Bool) (f : FileEnt) : Bool × List Char :=
  grepOutput (searchFile m f)

/-! ## Conversation history and trimming (src/server/src/ws/session.py)

A conversation message has a role and a list of content blocks.  A
block is modelled by the dictionary fields the code inspects: its type,
its "text" and "content" string fields (empty when the key is absent,
as with block.get(key, "")) and its tool id (the "id" of a tool_use
block or the "tool_use_id" of a tool_result block).  In this program a
message content is always a block list, never a bare string. -/

structure CBlock where
  btype : String
  text : String
  content : String
  toolId : String
deriving DecidableEq

structure Msg where
  role : String
  content : List CBlock
deriving DecidableEq

/-- Session.estimate_tokens: sum of len(text) + len(content) over all
blocks of all messages, integer-divided by 4. -/
def estimateTokens (conv : List Msg) : Nat :=
  ((conv.map (fun msg =>
    (msg.content.map (fun b => b.text.length + b.content.length)).sum)).sum) / 4

/-- The token-budget phase of the live Session._trim_history: while
more than two messages remain and the estimate exceeds 100 000, drop
the two oldest messages.  Fuel-driven so the recursion is structural;
every iteration drops two messages, so conv.length fuel always
suffices (the wrapper passes it). -/
def trimByTokensF : Nat → List Msg → List Msg
  | 0, conv => conv
  | fuel + 1, conv =>
    if 2 < conv.length ∧ 100000 < estimateTokens conv then
      trimByTokensF fuel (conv.drop 2)
    else conv

def trimByTokens (conv : List Msg) : List Msg := trimByTokensF conv.length conv

/-- The live Session._trim_history (the second definition in the file,
which shadows the first): drop the excess over max_turns * 2 oldest
messages, then apply the token-budget loop. -/
def trimHistory (maxTurns : Nat) (conv : List Msg) : List Msg :=
  let maxMessages := maxTurns * 2
  let conv1 := if maxMessages < conv.length then conv.drop (conv.length - maxMessages)
               else conv
  trimByTokens conv1

/-- Session.add_user_message with block-list content. -/
def addUserMessage (maxTurns : Nat) (conv : List Msg) (content : List CBlock) :
    List Msg :=
  trimHistory maxTurns (conv ++ [⟨"user", content⟩])

/-- Session.add_assistant_message. -/
def addAssistantMessage (maxTurns : Nat) (conv : List Msg) (content : List CBlock) :
    List Msg :=
  trimHistory maxTurns (conv ++ [⟨"assistant", content⟩])

/-! ## LLM streaming client (src/server/src/claude/client.py, stream_response)

The LLM collaborator is an oracle: the i-th API call of the response
returns the i-th round, given as the stream events observed (only
their shape matters: a text content_block_start resets text_so_far, a
text_delta appends and is yielded, anything else yields nothing) and
the final message content, a list of text / tool_use blocks.  The tool
executor is a pure function from tool name and input to success and
output.  Events are the dictionaries the generator yields. -/

inductive Block where
  | text (s : String)
  | toolUse (id name input : String)
deriving DecidableEq

inductive StreamEv where
  | startText
  | textDelta (s : String)
  | other
deriving DecidableEq

structure RRound where
  stream : List StreamEv
  final : List Block

def Exec : Type := String → String → Bool × String

def MAX_TOOL_ROUNDS : Nat := 15

def maxItersMsg : String := "\n\n(Reached maximum tool-use iterations)"

inductive Ev where
  | textDelta (s : String)
  | textDone
  | toolUse (name id input : String)
  | toolResult (id name : String) (success : Bool) (output : String)
  | responseComplete
deriving DecidableEq

/-- Interrupt flag reading at cooperative check number c: with a
threshold some n the flag is true from check n on, with none it never
becomes true. -/
def interruptedAt : Option Nat → Nat → Bool
  | none, _ => false
  | some n, c => decide (n ≤ c)

/-- The assistant_content list built from the final message: one text
block per non-empty text block, one tool_use block per tool_use. -/
def assistantBlocks : List Block → List CBlock
  | [] => []
  | Block.text s :: rest =>
    if s = "" then assistantBlocks rest
    else ⟨"text", s, "", ""⟩ :: assistantBlocks rest
  | Block.toolUse id _ _ :: rest => ⟨"tool_use", "", "", id⟩ :: assistantBlocks rest

def hasToolUse : List Block → Bool
  | [] => false
  | Block.text _ :: rest => hasToolUse rest
  | Block.toolUse _ _ _ :: _ => true

/-- Result of streaming one assistant turn inside the generator. -/
structure StreamOut where
  events : List Ev
  txt : String
  c : Nat
  aborted : Bool
deriving DecidableEq

/-- The async-for over the anthropic stream: before each received
event the generator checks session.interrupted and returns if set;
text deltas accumulate into text_so_far and are yielded. -/
def gStream (t : Option Nat) : List StreamEv → Nat → String → StreamOut
  | [], c, txt => ⟨[], txt, c, false⟩
  | e :: rest, c, txt =>
    if interruptedAt t c then ⟨[], txt, c + 1, true⟩
    else
      match e with
      | StreamEv.startText => gStream t rest (c + 1) ""
      | StreamEv.textDelta s =>
        let r := gStream t rest (c + 1) (txt ++ s)
        ⟨Ev.textDelta s :: r.events, r.txt, r.c, r.aborted⟩
      | StreamEv.other => gStream t rest (c + 1) txt

/-- The tool execution loop of the generator: per tool_use block of the
final message, yield tool_use, execute, yield tool_result, and collect
the tool_result content block for the follow-up user message.  No
interrupt check occurs inside this loop. -/
def gTools (ex : Exec) : List Block → List Ev × List CBlock
  | [] => ([], [])
  | Block.text _ :: rest => gTools ex rest
  | Block.toolUse id name inp :: rest =>
    let r := ex name inp
    let rec2 := gTools ex rest
    (Ev.toolUse name id inp :: Ev.toolResult id name r.1 r.2 :: rec2.1,
     ⟨"tool_result", "", r.2, id⟩ :: rec2.2)

/-- Result of the whole generator: yielded events, the session
conversation after the appends the generator performs (never passed
through _trim_history), the final check counter, and the number of
loop iterations that reached the API call. -/
structure GOut where
  events : List Ev
  conv : List Msg
  c : Nat
  roundsUsed : Nat
deriving DecidableEq

/-- The body of stream_response: for round in range(MAX_TOOL_ROUNDS),
with the top-of-iteration interrupt check, the stream relay, the
text_done emission when any text was streamed, the tool-less
completion, and otherwise tool execution plus the two history appends;
on fuel exhaustion the three synthetic events. -/
def gLoop (t : Option Nat) (ex : Exec) (rounds : Nat → RRound) :
    Nat → Nat → Nat → List Msg → GOut
  | 0, _, c, conv =>
    ⟨[Ev.textDelta maxItersMsg, Ev.textDone, Ev.responseComplete], conv, c, 0⟩
  | fuel + 1, i, c, conv =>
    if interruptedAt t c then ⟨[], conv, c + 1, 0⟩
    else
      let s := gStream t (rounds i).stream (c + 1) ""
      if s.aborted then ⟨s.events, conv, s.c, 1⟩
      else
        let ac := assistantBlocks (rounds i).final
        let evs1 := s.events ++ (if s.txt = "" then [] else [Ev.textDone])
        if hasToolUse (rounds i).final then
          let conv1 := conv ++ [⟨"assistant", ac⟩]
          let tr := gTools ex (rounds i).final
          let conv2 := conv1 ++ [⟨"user", tr.2⟩]
          let r := gLoop t ex rounds fuel (i + 1) s.c conv2
          ⟨evs1 ++ tr.1 ++ r.events, r.conv, r.c, r.roundsUsed + 1⟩
        else
          let conv1 := if ac = [] then conv else conv ++ [⟨"assistant", ac⟩]
          ⟨evs1 ++ [Ev.responseComplete], conv1, s.c, 1⟩

/-- ClaudeClient.stream_response for one response, starting from the
given conversation. -/
def streamResponse (t : Option Nat) (ex : Exec) (rounds : Nat → RRound)
    (conv : List Msg) : GOut :=
  gLoop t ex rounds MAX_TOOL_ROUNDS 0 0 conv

/-! ## speak-tag extraction (src/server/src/ws/handler.py,
_run_claude_response text_delta branch)

Python str.replace with all occurrences replaced, a first-occurrence
substring finder, Python str.strip, and the loop that repeatedly
matches the non-greedy dot-all pattern of an open tag, shortest inner
text, close tag against the buffer.  Because the close tag cannot
overlap an occurrence of the open tag, the leftmost shortest regex
match is: the first open tag occurrence, paired with the first close
tag occurrence after it, and there is no match at all exactly when
there is no close tag after the first open tag. -/

def replaceAllAuxF (old new : List Char) : Nat → List Char → List Char
  | 0, t => t
  | _ + 1, [] => []
  | fuel + 1, c :: rest =>
    if old.isPrefixOf (c :: rest) ∧ old ≠ [] then
      new ++ replaceAllAuxF old new fuel (rest.drop (old.length - 1))
    else c :: replaceAllAuxF old new fuel rest

/-- Python str.replace(old, new) for a non-empty old (the two tag
literals the handler passes are non-empty); fuel-driven with always
sufficient fuel as each step consumes at least one character. -/
def pyReplaceAll (text old new : List Char) : List Char :=
  replaceAllAuxF old new text.length text

def openTag : List Char := "<speak>".data

def closeTag : List Char := "</speak>".data

/-- display_text: delta.replace("<speak>", "").replace("</speak>", ""). -/
def stripSpeakTags (delta : List Char) : List Char :=
  pyReplaceAll (pyReplaceAll delta openTag []) closeTag []

/-- Index of the first occurrence of pat as a contiguous sublist. -/
def findSub (pat : List Char) : List Char → Option Nat
  | [] => none
  | c :: rest =>
    if pat.isPrefixOf (c :: rest) then some 0
    else (findSub pat rest).map (· + 1)

/-- re.search of the non-greedy dot-all speak pattern against the
buffer: the inner text of the leftmost shortest match together with
the end index of the whole match. -/
def findSpeakMatch (buf : List Char) : Option (List Char × Nat) :=
  match findSub openTag buf with
  | none => none
  | some i =>
    match findSub closeTag (buf.drop (i + openTag.length)) with
    | none => none
    | some j =>
      some ((buf.drop (i + openTag.length)).take j,
            i + openTag.length + j + closeTag.length)

def isSpace (c : Char) : Bool := c.isWhitespace

/-- Python str.strip(). -/
def trimChars (l : List Char) : List Char :=
  ((l.dropWhile isSpace).reverse.dropWhile isSpace).reverse

/-- The while-True extraction loop: find a match, strip the inner text,
enqueue it when non-empty, consume the buffer up to the match end.
Fuel-driven so that the recursion is structural; every match consumes
at least one character, so buf.length fuel is always enough (the
wrapper below passes it and the adequacy is proved later). -/
def extractSpeakF : Nat → List Char → List (List Char) × List Char
  | 0, buf => ([], buf)
  | fuel + 1, buf =>
    match findSpeakMatch buf with
    | none => ([], buf)
    | some (inner, e) =>
      let t := trimChars inner
      let r := extractSpeakF fuel (buf.drop e)
      (if t = [] then r.1 else t :: r.1, r.2)

def extractSpeak (buf : List Char) : List (List Char) × List Char :=
  extractSpeakF buf.length buf

/-- The whole text_delta branch of the handler: the displayed text with
tag literals stripped, the snippets enqueued to the TTS consumer, and
the remaining TTS buffer, given the buffer so far and the raw delta. -/
def processDelta (buf delta : List Char) :
    List Char × List (List Char) × List Char :=
  let display := stripSpeakTags delta
  let r := extractSpeak (buf ++ delta)
  (display, r.1, r.2)

/-! ## Connection handler relay (src/server/src/ws/handler.py,
_run_claude_response driving ClaudeClient.stream_response)

The handler pulls events from the generator with an async-for, so the
two run sequentially interleaved: the generator advances exactly while
the handler awaits the next event.  All interrupt checks of the pair
therefore happen in one deterministic global order, numbered by a
single counter: the generator checks at the top of each round and
before each received stream event, the handler checks after receiving
each yielded event (before processing it; on a true reading it breaks
out and the generator is abandoned).  Tool execution happens while the
handler awaits the event after tool_use, with no check between the
tool_use frame send and the execution; the ids of tools whose
execution ran are collected so that interruption before execution
began is expressible.  After the loop ends, for whatever reason, the
handler sends response_end. -/

/-- Python slicing output[:2000] applied to tool_result output for the
wire. -/
def truncate2000 (s : String) : String := String.mk (s.data.take 2000)

structure HSOut where
  frames : List Frame
  txt : String
  c : Nat
  aborted : Bool
deriving DecidableEq

/-- Streaming phase, checks interleaved: generator check before each
stream event, handler check on each yielded text_delta before the
response_delta frame is sent; the frame is sent only when the
tag-stripped display text is non-empty. -/
def hStream (t : Option Nat) : List StreamEv → Nat → String → HSOut
  | [], c, txt => ⟨[], txt, c, false⟩
  | e :: rest, c, txt =>
    if interruptedAt t c then ⟨[], txt, c + 1, true⟩
    else
      match e with
      | StreamEv.startText => hStream t rest (c + 1) ""
      | StreamEv.other => hStream t rest (c + 1) txt
      | StreamEv.textDelta s =>
        if interruptedAt t (c + 1) then ⟨[], txt ++ s, c + 2, true⟩
        else
          let d := stripSpeakTags s.data
          let r := hStream t rest (c + 2) (txt ++ s)
          ⟨(if d = [] then r.frames else Frame.responseDelta (String.mk d) :: r.frames),
           r.txt, r.c, r.aborted⟩

structure HTOut where
  frames : List Frame
  execed : List String
  c : Nat
  aborted : Bool
deriving DecidableEq

/-- Tool phase: per tool_use block the generator yields tool_use, the
handler checks and sends the frame, the generator then executes the
tool (recorded in execed) and yields tool_result, the handler checks
and sends the frame with the output truncated to 2000 characters. -/
def hTools (t : Option Nat) (ex : Exec) : List Block → Nat → HTOut
  | [], c => ⟨[], [], c, false⟩
  | Block.text _ :: rest, c => hTools t ex rest c
  | Block.toolUse id name inp :: rest, c =>
    if interruptedAt t c then ⟨[], [], c + 1, true⟩
    else
      let r := ex name inp
      if interruptedAt t (c + 1) then ⟨[Frame.toolUse id name inp], [id], c + 2, true⟩
      else
        let rec2 := hTools t ex rest (c + 2)
        ⟨Frame.toolUse id name inp ::
           Frame.toolResult id name r.1 (truncate2000 r.2) :: rec2.frames,
         id :: rec2.execed, rec2.c, rec2.aborted⟩

structure HOut where
  frames : List Frame
  execed : List String
  c : Nat
deriving DecidableEq

/-- The handler-driven generator loop; text_done and response_complete
yield handler checks but never frames.  On fuel exhaustion the three
synthetic generator events are relayed, of which only the text_delta
produces a frame. -/
def hLoop (t : Option Nat) (ex : Exec) (rounds : Nat → RRound) :
    Nat → Nat → Nat → HOut
  | 0, _, c =>
    if interruptedAt t c then ⟨[], [], c + 1⟩
    else
      let fs := [Frame.responseDelta (String.mk (stripSpeakTags maxItersMsg.data))]
      if interruptedAt t (c + 1) then ⟨fs, [], c + 2⟩ else ⟨fs, [], c + 3⟩
  | fuel + 1, i, c =>
    if interruptedAt t c then ⟨[], [], c + 1⟩
    else
      let s := hStream t (rounds i).stream (c + 1) ""
      if s.aborted then ⟨s.frames, [], s.c⟩
      else
        let c1 := if s.txt = "" then s.c else s.c + 1
        if (if s.txt = "" then false else interruptedAt t s.c) then ⟨s.frames, [], c1⟩
        else if hasToolUse (rounds i).final then
          let tr := hTools t ex (rounds i).final c1
          if tr.aborted then ⟨s.frames ++ tr.frames, tr.execed, tr.c⟩
          else
            let r := hLoop t ex rounds fuel (i + 1) tr.c
            ⟨s.frames ++ tr.frames ++ r.frames, tr.execed ++ r.execed, r.c⟩
        else ⟨s.frames, [], c1 + 1⟩

/-- _run_claude_response: drive the generator, then send response_end
whether the loop ended normally or by an interrupt break. -/
def handlerRun (t : Option Nat) (ex : Exec) (rounds : Nat → RRound) :
    List Frame × List String :=
  let r := hLoop t ex rounds MAX_TOOL_ROUNDS 0 0
  (r.frames ++ [Frame.responseEnd], r.execed)

/-- Count of tool_use frames carrying a given id. -/
def countToolUse (id : String) : List Frame → Nat
  | [] => 0
  | Frame.toolUse id2 _ _ :: rest =>
    (if id2 = id then 1 else 0) + countToolUse id rest
  | _ :: rest => countToolUse id rest

/-- Count of tool_result frames carrying a given id. -/
def countToolResult (id : String) : List Frame → Nat
  | [] => 0
  | Frame.toolResult id2 _ _ _ :: rest =>
    (if id2 = id then 1 else 0) + countToolResult id rest
  | _ :: rest => countToolResult id rest

/-! ## Concrete instances used by witnesses and counterexamples -/

/-- A tool executor oracle that always succeeds with output "ok". -/
def ex0 : Exec := fun _ _ => (true, "ok")

/-- An LLM oracle whose every turn is a single bash tool_use with id t1. -/
def r0 : Nat → RRound := fun _ => ⟨[], [Block.toolUse "t1" "bash" "ls"]⟩

/-- An LLM oracle with one tool round followed by an empty final turn. -/
def r1 : Nat → RRound := fun i =>
  if i = 0 then ⟨[], [Block.toolUse "t1" "bash" "ls"]⟩ else ⟨[], []⟩

/-- A two-message conversation, one user and one assistant turn. -/
def conv0 : List Msg :=
  [⟨"user", [⟨"text", "hi", "", ""⟩]⟩, ⟨"assistant", [⟨"text", "hello", "", ""⟩]⟩]

/-- An assistant turn holding one tool_use block with id t1. -/
def msgToolUse : Msg := ⟨"assistant", [⟨"tool_use", "", "", "t1"⟩]⟩

/-- The follow-up user turn holding the matching tool_result block. -/
def msgToolResult : Msg := ⟨"user", [⟨"tool_result", "", "ok", "t1"⟩]⟩

/-- A later plain user turn. -/
def msgNext : Msg := ⟨"user", [⟨"text", "next", "", ""⟩]⟩

/-- A file entry with one line, for grep instances. -/
def file0 : FileEnt := ⟨["a.txt"], [['x']]⟩

/-- A sandbox root with a dot-prefixed component. -/
def dottedRoot : List String := ["home", ".ws"]

/-- A line predicate matching every line. -/
def matchAll : List Char → Bool := fun _ => true

/-- An STT engine that always transcribes to "hi". -/
def stt0 : List Nat → Except Unit String := fun _ => Except.ok "hi"

/-- Well-formed pairing of an outbound frame list: tool frames occur
only as an adjacent tool_use / tool_result pair agreeing on id and
name, interleaved with response_delta and response_end frames. -/
inductive Paired : List Frame → Prop
  | nil : Paired []
  | delta (s : String) (fs : List Frame) : Paired fs →
      Paired (Frame.responseDelta s :: fs)
  | stop (fs : List Frame) : Paired fs → Paired (Frame.responseEnd :: fs)
  | pair (id nm inp : String) (s : Bool) (o : String) (fs : List Frame) :
      Paired fs →
      Paired (Frame.toolUse id nm inp :: Frame.toolResult id nm s o :: fs)

/-! # Theorems -/

/-! ## C1: sandbox containment -/

/-- Claim C1: for every resolve call that returns a path, that path is
the canonicalised join and is lexically within the sandbox root; when
the canonicalised join is not within the root, the call fails with the
sandbox-escape error instead of returning.  The canonicalisation
function (dot-dot and symlink resolution) is arbitrary. -/
theorem c1_sandbox_resolve_within_root (canon : List String → List String)
    (root : List String) (path : String) :
    (∀ q, sandboxResolve canon root path = Except.ok q →
       root.isPrefixOf q = true ∧ q = sandboxJoined canon root path) ∧
    (root.isPrefixOf (sandboxJoined canon root path) = false →
       sandboxResolve canon root path =
         Except.error ("Path escapes sandbox: " ++ path)) := by
  constructor
  · intro q h
    unfold sandboxResolve at h
    by_cases hp : root.isPrefixOf (sandboxJoined canon root path) = true
    · simp only [hp, if_true] at h
      cases h
      exact ⟨hp, rfl⟩
    · simp only [Bool.not_eq_true] at hp
      simp [hp] at h
  · intro hp
    unfold sandboxResolve
    simp [hp]

/-- Witness for C1 at canon = id, root = [work], path = "a/b". -/
theorem c1_witness :
    (["work"] : List String).isPrefixOf ["work", "a", "b"] = true ∧
      (["work", "a", "b"] : List String) = sandboxJoined id ["work"] "a/b" :=
  (c1_sandbox_resolve_within_root id ["work"] "a/b").1 ["work", "a", "b"] rfl

/-! ## C9: audio_end with empty buffer -/

/-- Counterexample to C9 as stated: with an empty audio buffer and no
STT engine configured, _handle_audio_end does emit an outbound frame,
namely the stt_unavailable error, so the emission is not independent
of whether an STT engine is configured. -/
theorem c9_counterexample :
    (handleAudioEnd [] none).1 = [sttUnavailableFrame] ∧
      (handleAudioEnd [] none).1 ≠ [] := by
  constructor
  · rfl
  · intro h
    simp [handleAudioEnd] at h

/-- C9 amended: handling audio_end with an empty buffer emits no
outbound frame and processes no user input when an STT engine is
configured; when no STT engine is configured it emits exactly the
stt_unavailable error frame (still processing no user input). -/
theorem c9_amended (stt : Option (List Nat → Except Unit String)) :
    (stt.isSome = true → handleAudioEnd [] stt = ([], false)) ∧
    (stt = none → handleAudioEnd [] stt = ([sttUnavailableFrame], false)) := by
  constructor
  · intro h
    match stt, h with
    | some f, _ => simp [handleAudioEnd]
  · intro h
    subst h
    simp [handleAudioEnd]

/-- Witness for C9 amended at a concrete STT engine. -/
theorem c9_witness : handleAudioEnd [] (some stt0) = ([], false) :=
  (c9_amended (some stt0)).1 rfl

/-! ## C10: grep dot-segment skip tests the sandbox root components -/

theorem grepDirAux_dotted (m : List Char → Bool) (root : List String)
    (hroot : ∃ part ∈ root, startsWithDot part = true) :
    ∀ files acc, grepDirAux m root files acc = acc := by
  intro files
  induction files with
  | nil => intro acc; rfl
  | cons f rest ih =>
    intro acc
    obtain ⟨part, hmem, hdot⟩ := hroot
    have hany : (root ++ f.relParts).any (fun part => startsWithDot part) = true := by
      rw [List.any_eq_true]
      exact ⟨part, List.mem_append_left _ hmem, hdot⟩
    simp only [grepDirAux, hany, if_true]
    exact ih acc

theorem searchLines_ne_nil (m : List Char → Bool) (rel : List Char)
    (lines : List (List Char)) (hline : ∃ l ∈ lines, m l = true) :
    ∀ i, searchLines m rel lines i ≠ [] := by
  induction lines with
  | nil => simp at hline
  | cons line rest ih =>
    intro i
    by_cases hm : m line = true
    · simp [searchLines, hm]
    · simp only [Bool.not_eq_true] at hm
      simp only [searchLines, hm, Bool.false_eq_true, if_false]
      apply ih
      obtain ⟨l, hmem, hml⟩ := hline
      rcases List.mem_cons.mp hmem with h | h
      · subst h; rw [hml] at hm; cases hm
      · exact ⟨l, h, hml⟩

theorem searchLines_colon (m : List Char → Bool) (rel : List Char)
    (lines : List (List Char)) :
    ∀ i x, x ∈ searchLines m rel lines i → ':' ∈ x := by
  induction lines with
  | nil => intro i x hx; simp [searchLines] at hx
  | cons line rest ih =>
    intro i x hx
    by_cases hm : m line = true
    · simp only [searchLines, hm, if_true] at hx
      rcases List.mem_cons.mp hx with h | h
      · subst h
        exact List.mem_append_right _ (List.mem_cons_self _ _)
      · exact ih _ x h
    · simp only [Bool.not_eq_true] at hm
      simp only [searchLines, hm, Bool.false_eq_true, if_false] at hx
      exact ih _ x hx

theorem joinLines_head_mem (c : Char) (h : List Char) (rest : List (List Char))
    (hc : c ∈ h) : c ∈ joinLines (h :: rest) := by
  cases rest with
  | nil => simpa [joinLines] using hc
  | cons r rs =>
    simp only [joinLines]
    rw [if_neg (by simp)]
    exact List.mem_append_left _ hc

theorem grepOutput_success (results : List (List Char)) :
    (grepOutput results).1 = true := by
  unfold grepOutput
  by_cases h : results = []
  · simp [h]
  · simp [h]

/-- Claim C10: when grep runs in directory mode over a sandbox whose
root has a dot-prefixed component, every candidate file is skipped by
the dot-segment check (which ranges over all components of the
absolute resolved path, the root components included), so the result
is success with "No matches found" for every pattern and every file
set; whereas grep invoked on a file directly searches it with no
dot-segment check, so a file with a matching line yields real output,
never "No matches found". -/
theorem c10_grep_dotted_root (m : List Char → Bool) (root : List String)
    (files : List FileEnt) (f : FileEnt)
    (hroot : ∃ part ∈ root, startsWithDot part = true)
    (hline : ∃ l ∈ f.lines, m l = true) :
    grepDir m root files = (true, noMatchesMsg) ∧
    (grepFile m f).1 = true ∧ (grepFile m f).2 ≠ noMatchesMsg := by
  refine ⟨?_, grepOutput_success _, ?_⟩
  · unfold grepDir
    rw [grepDirAux_dotted m root hroot files []]
    rfl
  · unfold grepFile grepOutput
    have hne : searchFile m f ≠ [] := searchLines_ne_nil m (relChars f) f.lines hline 1
    rw [if_neg hne]
    simp only
    intro hout
    obtain ⟨h1, t1, hsf⟩ : ∃ h1 t1, searchFile m f = h1 :: t1 := by
      cases hsf2 : searchFile m f with
      | nil => exact absurd hsf2 hne
      | cons a b => exact ⟨a, b, rfl⟩
    have hmem1 : h1 ∈ searchFile m f := by
      rw [hsf]; exact List.mem_cons_self _ _
    have hc : ':' ∈ h1 := searchLines_colon m (relChars f) f.lines 1 h1 hmem1
    have hcolon : ':' ∈ joinLines ((searchFile m f).take maxResults) := by
      rw [hsf]
      have htake : (h1 :: t1).take maxResults = h1 :: t1.take 199 := rfl
      rw [htake]
      exact joinLines_head_mem ':' h1 _ hc
    have hnm : (':' ∈ noMatchesMsg) := by
      rw [← hout]
      by_cases hlen : maxResults < (searchFile m f).length
      · rw [if_pos hlen]
        exact List.mem_append_left _ hcolon
      · rw [if_neg hlen]
        exact hcolon
    revert hnm
    decide

/-- Witness for C10 at a dotted root, the all-matching predicate, and a
one-line file. -/
theorem c10_witness :
    grepDir matchAll dottedRoot [file0] = (true, noMatchesMsg) ∧
    (grepFile matchAll file0).1 = true ∧
      (grepFile matchAll file0).2 ≠ noMatchesMsg :=
  c10_grep_dotted_root matchAll dottedRoot [file0] file0
    ⟨".ws", by decide, by decide⟩ ⟨['x'], by decide, rfl⟩

/-! ## C8: edit_file error message (code bug: mojibake separator) -/

/-- Claim C8 evaluated at the failing input: a file containing "aa"
with old_text "a" occurs twice, the file is left unchanged and the
call fails, but the failure output carries the double-encoded
separator of the source literal, not the em dash the claim quotes. -/
theorem c8_message_eval :
    editFile ['a', 'a'] ['a'] ['b'] = (⟨false, foundTimesMsg 2⟩, ['a', 'a']) ∧
    foundTimesMsg 2 = "old_text found 2 times â€” must be unique" ∧
    foundTimesMsg 2 ≠ "old_text found 2 times — must be unique" := by
  refine ⟨rfl, rfl, ?_⟩
  decide

/-! ## C6: history trimming drops single messages and splits tool pairs
(code bug) -/

/-- Claim C6 evaluated at the failing input: with
max_conversation_turns = 1, trimming a three-message conversation
whose oldest pair is an assistant tool_use turn and its tool_result
user turn drops exactly one message (not a pair, and not four), and
the new oldest message is the stranded tool_result user turn. -/
theorem c6_trim_eval :
    trimHistory 1 [msgToolUse, msgToolResult, msgNext] = [msgToolResult, msgNext] ∧
    msgToolUse.role = "assistant" ∧
    msgToolUse.content.all (fun b => b.btype = "tool_use") = true ∧
    msgToolResult.role = "user" ∧
    msgToolResult.content.all (fun b => b.btype = "tool_result") = true := by
  refine ⟨rfl, rfl, ?_, rfl, ?_⟩ <;> decide

/-! ## C5: conversation bounds after appends -/

theorem trimByTokensF_drop (fuel : Nat) :
    ∀ conv : List Msg, ∃ j, trimByTokensF fuel conv = conv.drop (2 * j) := by
  induction fuel with
  | zero => intro conv; exact ⟨0, rfl⟩
  | succ fuel ih =>
    intro conv
    by_cases h : 2 < conv.length ∧ 100000 < estimateTokens conv
    · obtain ⟨j, hj⟩ := ih (conv.drop 2)
      refine ⟨j + 1, ?_⟩
      have harith : 2 + 2 * j = 2 * (j + 1) := by ring
      simp only [trimByTokensF, if_pos h, hj, List.drop_drop]
      rw [← harith, Nat.add_comm]
    · exact ⟨0, by simp [trimByTokensF, h]⟩

theorem trimByTokensF_post (fuel : Nat) :
    ∀ conv : List Msg, conv.length ≤ fuel →
      (trimByTokensF fuel conv).length ≤ 2 ∨
        estimateTokens (trimByTokensF fuel conv) ≤ 100000 := by
  induction fuel with
  | zero =>
    intro conv h
    left
    simp only [trimByTokensF]
    omega
  | succ fuel ih =>
    intro conv h
    by_cases hc : 2 < conv.length ∧ 100000 < estimateTokens conv
    · have hrec := ih (conv.drop 2) (by simp only [List.length_drop]; omega)
      simpa only [trimByTokensF, if_pos hc] using hrec
    · simp only [trimByTokensF, if_neg hc]
      rcases Decidable.not_and_iff_or_not.mp hc with h1 | h2
      · left; omega
      · right; omega

theorem trimHistory_bounds (maxTurns : Nat) (conv : List Msg) :
    (∃ k, trimHistory maxTurns conv = conv.drop k) ∧
    (trimHistory maxTurns conv).length ≤ maxTurns * 2 ∧
    ((trimHistory maxTurns conv).length ≤ 2 ∨
      estimateTokens (trimHistory maxTurns conv) ≤ 100000) := by
  unfold trimHistory trimByTokens
  by_cases h : maxTurns * 2 < conv.length
  · simp only [if_pos h]
    obtain ⟨j, hj⟩ := trimByTokensF_drop
      (conv.drop (conv.length - maxTurns * 2)).length
      (conv.drop (conv.length - maxTurns * 2))
    refine ⟨⟨conv.length - maxTurns * 2 + 2 * j, ?_⟩, ?_, ?_⟩
    · rw [hj, List.drop_drop, Nat.add_comm]
    · rw [hj]
      simp only [List.length_drop]
      omega
    · exact trimByTokensF_post _ _ (le_refl _)
  · simp only [if_neg h]
    obtain ⟨j, hj⟩ := trimByTokensF_drop conv.length conv
    refine ⟨⟨2 * j, hj⟩, ?_, trimByTokensF_post _ _ (le_refl _)⟩
    rw [hj]
    simp only [List.length_drop]
    omega

/-- C5 amended: after a message append that goes through
Session._trim_history (add_user_message or add_assistant_message), the
conversation holds at most 2 * max_conversation_turns messages, and
either at most two messages remain or the char-based token estimate is
at most 100 000.  (Appends performed directly by stream_response
during tool rounds bypass trimming entirely; see the counterexample.) -/
theorem c5_amended (maxTurns : Nat) (conv : List Msg) (content : List CBlock) :
    ((addUserMessage maxTurns conv content).length ≤ maxTurns * 2 ∧
      ((addUserMessage maxTurns conv content).length ≤ 2 ∨
        estimateTokens (addUserMessage maxTurns conv content) ≤ 100000)) ∧
    ((addAssistantMessage maxTurns conv content).length ≤ maxTurns * 2 ∧
      ((addAssistantMessage maxTurns conv content).length ≤ 2 ∨
        estimateTokens (addAssistantMessage maxTurns conv content) ≤ 100000)) :=
  ⟨⟨(trimHistory_bounds maxTurns _).2.1, (trimHistory_bounds maxTurns _).2.2⟩,
   ⟨(trimHistory_bounds maxTurns _).2.1, (trimHistory_bounds maxTurns _).2.2⟩⟩

/-- Counterexample to C5 as stated: with max_conversation_turns = 1
and a conversation already at the cap of two messages (a fixed point
of trimming), one tool round of stream_response appends the assistant
tool_use turn and the tool_result user turn directly, without
trimming, leaving four messages, more than 2 * max_conversation_turns;
the claimed length invariant is violated after an append performed by
the LLM streaming client. -/
theorem c5_counterexample :
    trimHistory 1 conv0 = conv0 ∧
    (streamResponse none ex0 r1 conv0).conv.length = 4 ∧
    2 * 1 < (streamResponse none ex0 r1 conv0).conv.length := by
  refine ⟨rfl, rfl, ?_⟩
  decide

/-! ## C3: the tool-round bound and the exhaustion tail -/

theorem gStream_none_not_aborted (evs : List StreamEv) :
    ∀ c txt, (gStream none evs c txt).aborted = false := by
  induction evs with
  | nil => intro c txt; rfl
  | cons e rest ih =>
    intro c txt
    cases e with
    | startText => simpa only [gStream, interruptedAt, Bool.false_eq_true,
        if_false] using ih (c + 1) ""
    | textDelta s => simpa only [gStream, interruptedAt, Bool.false_eq_true,
        if_false] using ih (c + 1) (txt ++ s)
    | other => simpa only [gStream, interruptedAt, Bool.false_eq_true,
        if_false] using ih (c + 1) txt

theorem gLoop_roundsUsed_le (t : Option Nat) (ex : Exec) (rounds : Nat → RRound)
    (fuel : Nat) : ∀ i c conv, (gLoop t ex rounds fuel i c conv).roundsUsed ≤ fuel := by
  induction fuel with
  | zero => intro i c conv; exact Nat.le_refl 0
  | succ fuel ih =>
    intro i c conv
    simp only [gLoop]
    by_cases h1 : interruptedAt t c = true
    · simp only [h1, if_true]
      exact Nat.zero_le _
    · simp only [Bool.not_eq_true] at h1
      simp only [h1, Bool.false_eq_true, if_false]
      by_cases h2 : (gStream t (rounds i).stream (c + 1) "").aborted = true
      · simp only [h2, if_true]
        omega
      · simp only [Bool.not_eq_true] at h2
        simp only [h2, Bool.false_eq_true, if_false]
        by_cases h3 : hasToolUse (rounds i).final = true
        · simp only [h3, if_true]
          have := ih (i + 1) (gStream t (rounds i).stream (c + 1) "").c
            (conv ++ [⟨"assistant", assistantBlocks (rounds i).final⟩] ++
              [⟨"user", (gTools ex (rounds i).final).2⟩])
          omega
        · simp only [Bool.not_eq_true] at h3
          simp only [h3, Bool.false_eq_true, if_false]
          omega

theorem gLoop_none_all_tools (ex : Exec) (rounds : Nat → RRound) (fuel : Nat) :
    ∀ i c conv, (∀ k, k < fuel → hasToolUse (rounds (i + k)).final = true) →
      ∃ E, (gLoop none ex rounds fuel i c conv).events =
        E ++ [Ev.textDelta maxItersMsg, Ev.textDone, Ev.responseComplete] := by
  induction fuel with
  | zero => intro i c conv _; exact ⟨[], rfl⟩
  | succ fuel ih =>
    intro i c conv h
    simp only [gLoop, interruptedAt, Bool.false_eq_true, if_false,
      gStream_none_not_aborted]
    have h0 : hasToolUse (rounds i).final = true := by
      have := h 0 (Nat.succ_pos fuel)
      simpa using this
    simp only [h0, if_true]
    obtain ⟨E, hE⟩ := ih (i + 1) (gStream none (rounds i).stream (c + 1) "").c
      (conv ++ ([⟨"assistant", assistantBlocks (rounds i).final⟩] ++
        [⟨"user", (gTools ex (rounds i).final).2⟩]))
      (fun k hk => by
        have := h (k + 1) (Nat.succ_lt_succ hk)
        simpa [Nat.add_assoc, Nat.add_comm 1 k] using this)
    refine ⟨(gStream none (rounds i).stream (c + 1) "").events ++
      (if (gStream none (rounds i).stream (c + 1) "").txt = "" then []
        else [Ev.textDone]) ++ (gTools ex (rounds i).final).1 ++ E, ?_⟩
    simp only [hE, List.append_assoc]

/-- Claim C3: MAX_TOOL_ROUNDS is 15 and bounds the number of LLM-tool
round-trips of any stream_response call; and when the loop runs all
rounds without a tool-less assistant turn (and uninterrupted), the
event sequence ends with exactly the synthetic text_delta reading the
maximum-iterations message, a text_done, and a response_complete. -/
theorem c3_max_tool_rounds (t : Option Nat) (ex : Exec) (rounds : Nat → RRound)
    (conv : List Msg) :
    MAX_TOOL_ROUNDS = 15 ∧
    (streamResponse t ex rounds conv).roundsUsed ≤ MAX_TOOL_ROUNDS ∧
    (t = none → (∀ k, k < MAX_TOOL_ROUNDS → hasToolUse (rounds k).final = true) →
      ∃ E, (streamResponse t ex rounds conv).events =
        E ++ [Ev.textDelta maxItersMsg, Ev.textDone, Ev.responseComplete]) := by
  refine ⟨rfl, gLoop_roundsUsed_le t ex rounds MAX_TOOL_ROUNDS 0 0 conv, ?_⟩
  intro ht h
  subst ht
  exact gLoop_none_all_tools ex rounds MAX_TOOL_ROUNDS 0 0 conv
    (fun k hk => by simpa using h k hk)

/-- Witness for C3 at the all-tool oracle: the exhaustion tail is
reached. -/
theorem c3_witness :
    ∃ E, (streamResponse none ex0 r0 []).events =
      E ++ [Ev.textDelta maxItersMsg, Ev.textDone, Ev.responseComplete] :=
  (c3_max_tool_rounds none ex0 r0 []).2.2 rfl (fun _ _ => rfl)


/-! ## C4: interruption yields nothing further -/

theorem interruptedAt_none (c : Nat) : interruptedAt none c = false := rfl

theorem interruptedAt_le {n c : Nat} (h : n ≤ c) :
    interruptedAt (some n) c = true := by
  simp [interruptedAt, h]

theorem interruptedAt_not_le {n c : Nat} (h : ¬ n ≤ c) :
    interruptedAt (some n) c = false := by
  simp [interruptedAt, h]

theorem prefix_append_same {a b : List Ev} (l : List Ev) (h : a <+: b) :
    (l ++ a) <+: (l ++ b) := by
  obtain ⟨t, ht⟩ := h
  exact ⟨t, by rw [List.append_assoc, ht]⟩

theorem gStream_some_interrupted {n c : Nat} (hn : n ≤ c) (e : StreamEv)
    (rest : List StreamEv) (txt : String) :
    gStream (some n) (e :: rest) c txt = ⟨[], txt, c + 1, true⟩ := by
  cases e <;> simp [gStream, interruptedAt_le hn]

theorem gStream_some_startText {n c : Nat} (hn : ¬ n ≤ c)
    (rest : List StreamEv) (txt : String) :
    gStream (some n) (StreamEv.startText :: rest) c txt =
      gStream (some n) rest (c + 1) "" := by
  simp [gStream, interruptedAt_not_le hn]

theorem gStream_some_other {n c : Nat} (hn : ¬ n ≤ c)
    (rest : List StreamEv) (txt : String) :
    gStream (some n) (StreamEv.other :: rest) c txt =
      gStream (some n) rest (c + 1) txt := by
  simp [gStream, interruptedAt_not_le hn]

theorem gStream_some_textDelta {n c : Nat} (hn : ¬ n ≤ c) (s : String)
    (rest : List StreamEv) (txt : String) :
    gStream (some n) (StreamEv.textDelta s :: rest) c txt =
      ⟨Ev.textDelta s :: (gStream (some n) rest (c + 1) (txt ++ s)).events,
       (gStream (some n) rest (c + 1) (txt ++ s)).txt,
       (gStream (some n) rest (c + 1) (txt ++ s)).c,
       (gStream (some n) rest (c + 1) (txt ++ s)).aborted⟩ := by
  simp [gStream, interruptedAt_not_le hn]

theorem gStream_none_startText (c : Nat) (rest : List StreamEv) (txt : String) :
    gStream none (StreamEv.startText :: rest) c txt =
      gStream none rest (c + 1) "" := by
  simp [gStream, interruptedAt_none]

theorem gStream_none_other (c : Nat) (rest : List StreamEv) (txt : String) :
    gStream none (StreamEv.other :: rest) c txt =
      gStream none rest (c + 1) txt := by
  simp [gStream, interruptedAt_none]

theorem gStream_none_textDelta (c : Nat) (s : String) (rest : List StreamEv)
    (txt : String) :
    gStream none (StreamEv.textDelta s :: rest) c txt =
      ⟨Ev.textDelta s :: (gStream none rest (c + 1) (txt ++ s)).events,
       (gStream none rest (c + 1) (txt ++ s)).txt,
       (gStream none rest (c + 1) (txt ++ s)).c,
       (gStream none rest (c + 1) (txt ++ s)).aborted⟩ := by
  simp [gStream, interruptedAt_none]

theorem gStream_some_eq_of_not_aborted (n : Nat) (evs : List StreamEv) :
    ∀ c txt, (gStream (some n) evs c txt).aborted = false →
      gStream (some n) evs c txt = gStream none evs c txt := by
  induction evs with
  | nil => intro c txt _; rfl
  | cons e rest ih =>
    intro c txt hab
    by_cases hn : n ≤ c
    · rw [gStream_some_interrupted hn] at hab
      cases hab
    · cases e with
      | startText =>
        rw [gStream_some_startText hn] at hab ⊢
        rw [gStream_none_startText]
        exact ih (c + 1) "" hab
      | textDelta s =>
        rw [gStream_some_textDelta hn] at hab ⊢
        rw [gStream_none_textDelta]
        rw [ih (c + 1) (txt ++ s) hab]
      | other =>
        rw [gStream_some_other hn] at hab ⊢
        rw [gStream_none_other]
        exact ih (c + 1) txt hab

theorem gStream_prefix (n : Nat) (evs : List StreamEv) :
    ∀ c txt, (gStream (some n) evs c txt).events <+:
      (gStream none evs c txt).events := by
  induction evs with
  | nil => intro c txt; exact List.prefix_refl _
  | cons e rest ih =>
    intro c txt
    by_cases hn : n ≤ c
    · rw [gStream_some_interrupted hn]
      exact List.nil_prefix
    · cases e with
      | startText =>
        rw [gStream_some_startText hn, gStream_none_startText]
        exact ih (c + 1) ""
      | textDelta s =>
        rw [gStream_some_textDelta hn, gStream_none_textDelta]
        exact prefix_append_same [Ev.textDelta s] (ih (c + 1) (txt ++ s))
      | other =>
        rw [gStream_some_other hn, gStream_none_other]
        exact ih (c + 1) txt

theorem gLoop_some_interrupted {n c : Nat} (hn : n ≤ c) (ex : Exec)
    (rounds : Nat → RRound) (fuel i : Nat) (conv : List Msg) :
    gLoop (some n) ex rounds (fuel + 1) i c conv = ⟨[], conv, c + 1, 0⟩ := by
  simp [gLoop, interruptedAt_le hn]

theorem gLoop_events_head (ex : Exec) (rounds : Nat → RRound) (fuel i c : Nat)
    (conv : List Msg) :
    ∃ tail, (gLoop none ex rounds (fuel + 1) i c conv).events =
      (gStream none (rounds i).stream (c + 1) "").events ++ tail := by
  simp only [gLoop, interruptedAt_none, Bool.false_eq_true, if_false,
    gStream_none_not_aborted]
  by_cases h3 : hasToolUse (rounds i).final = true
  · simp only [h3, if_true]
    exact ⟨_, by rw [List.append_assoc, List.append_assoc]⟩
  · simp only [Bool.not_eq_true] at h3
    simp only [h3, Bool.false_eq_true, if_false]
    exact ⟨_, by rw [List.append_assoc]⟩

theorem gLoop_prefix (n : Nat) (ex : Exec) (rounds : Nat → RRound) (fuel : Nat) :
    ∀ i c conv, (gLoop (some n) ex rounds fuel i c conv).events <+:
      (gLoop none ex rounds fuel i c conv).events := by
  induction fuel with
  | zero => intro i c conv; exact List.prefix_refl _
  | succ fuel ih =>
    intro i c conv
    by_cases hn : n ≤ c
    · rw [gLoop_some_interrupted hn]
      exact List.nil_prefix
    · have hn2 : interruptedAt (some n) c = false := interruptedAt_not_le hn
      by_cases hab : (gStream (some n) (rounds i).stream (c + 1) "").aborted = true
      · have hL : (gLoop (some n) ex rounds (fuel + 1) i c conv).events =
            (gStream (some n) (rounds i).stream (c + 1) "").events := by
          simp only [gLoop, hn2, Bool.false_eq_true, if_false, hab, if_true]
        rw [hL]
        obtain ⟨tail, htail⟩ := gLoop_events_head ex rounds fuel i c conv
        rw [htail]
        have hsp := gStream_prefix n (rounds i).stream (c + 1) ""
        exact hsp.trans ⟨tail, rfl⟩
      · simp only [Bool.not_eq_true] at hab
        have heq := gStream_some_eq_of_not_aborted n (rounds i).stream (c + 1) "" hab
        by_cases h3 : hasToolUse (rounds i).final = true
        · simp only [gLoop, hn2, Bool.false_eq_true, if_false, interruptedAt_none,
            heq, gStream_none_not_aborted, h3, if_true, List.append_assoc]
          exact prefix_append_same _ (prefix_append_same _
            (prefix_append_same _ (ih (i + 1) _ _)))
        · simp only [Bool.not_eq_true] at h3
          simp only [gLoop, hn2, Bool.false_eq_true, if_false, interruptedAt_none,
            heq, gStream_none_not_aborted, h3]
          exact List.prefix_refl _

/-- Claim C4: when the interrupt flag reads true at the check opening
a tool-use iteration, stream_response returns at once: the whole
remaining event sequence is empty; the same check runs before each
received stream event (second conjunct); and, the flag being monotone
within one response, the events of an interrupted run always form a
prefix of the events of the uninterrupted run, so no event is yielded
by stream_response after the flag becomes observable at one of the
check points. -/
theorem c4_interrupt (n : Nat) (ex : Exec) (rounds : Nat → RRound)
    (fuel i c : Nat) (conv : List Msg) (evs : List StreamEv) (txt : String) :
    (n ≤ c → (gLoop (some n) ex rounds (fuel + 1) i c conv).events = []) ∧
    (n ≤ c → (gStream (some n) evs c txt).events = []) ∧
    ((gLoop (some n) ex rounds fuel i c conv).events <+:
      (gLoop none ex rounds fuel i c conv).events) := by
  refine ⟨?_, ?_, gLoop_prefix n ex rounds fuel i c conv⟩
  · intro h
    rw [gLoop_some_interrupted h]
  · intro h
    cases evs with
    | nil => rfl
    | cons e rest => rw [gStream_some_interrupted h]

/-- Witness for C4: an interrupt threshold of zero observed at the
opening check of the first round yields no events at all. -/
theorem c4_witness :
    (gLoop (some 0) ex0 r0 (14 + 1) 0 0 []).events = [] ∧
    (gStream (some 0) [StreamEv.textDelta "hi"] 0 "").events = [] :=
  ⟨(c4_interrupt 0 ex0 r0 14 0 0 [] [StreamEv.textDelta "hi"] "").1 (Nat.le_refl 0),
   (c4_interrupt 0 ex0 r0 14 0 0 [] [StreamEv.textDelta "hi"] "").2.1 (Nat.le_refl 0)⟩

/-! ## C2: tool_use / tool_result pairing on the wire -/

theorem hStream_none_not_aborted (evs : List StreamEv) :
    ∀ c txt, (hStream none evs c txt).aborted = false := by
  induction evs with
  | nil => intro c txt; rfl
  | cons e rest ih =>
    intro c txt
    cases e with
    | startText => simpa only [hStream, interruptedAt_none, Bool.false_eq_true,
        if_false] using ih (c + 1) ""
    | textDelta s =>
      simp only [hStream, interruptedAt_none, Bool.false_eq_true, if_false]
      by_cases hd : stripSpeakTags s.data = []
      · simpa only [hd, if_true] using ih (c + 2) (txt ++ s)
      · simpa only [hd, if_false] using ih (c + 2) (txt ++ s)
    | other => simpa only [hStream, interruptedAt_none, Bool.false_eq_true,
        if_false] using ih (c + 1) txt

theorem hStream_none_frames_delta (evs : List StreamEv) :
    ∀ c txt f, f ∈ (hStream none evs c txt).frames →
      ∃ s, f = Frame.responseDelta s := by
  induction evs with
  | nil => intro c txt f hf; simp [hStream] at hf
  | cons e rest ih =>
    intro c txt f hf
    cases e with
    | startText =>
      simp only [hStream, interruptedAt_none, Bool.false_eq_true, if_false] at hf
      exact ih (c + 1) "" f hf
    | textDelta s =>
      simp only [hStream, interruptedAt_none, Bool.false_eq_true, if_false] at hf
      by_cases hd : stripSpeakTags s.data = []
      · rw [if_pos hd] at hf
        exact ih (c + 2) (txt ++ s) f hf
      · rw [if_neg hd] at hf
        rcases List.mem_cons.mp hf with h | h
        · exact ⟨_, h⟩
        · exact ih (c + 2) (txt ++ s) f h
    | other =>
      simp only [hStream, interruptedAt_none, Bool.false_eq_true, if_false] at hf
      exact ih (c + 1) txt f hf

theorem hTools_none_not_aborted (ex : Exec) (blocks : List Block) :
    ∀ c, (hTools none ex blocks c).aborted = false := by
  induction blocks with
  | nil => intro c; rfl
  | cons blk rest ih =>
    intro c
    cases blk with
    | text s => simpa only [hTools] using ih c
    | toolUse id name inp =>
      simpa only [hTools, interruptedAt_none, Bool.false_eq_true, if_false]
        using ih (c + 2)

theorem paired_append_deltas (a : List Frame)
    (ha : ∀ f ∈ a, ∃ s, f = Frame.responseDelta s) {b : List Frame}
    (hb : Paired b) : Paired (a ++ b) := by
  induction a with
  | nil => exact hb
  | cons f rest ih =>
    obtain ⟨s, hs⟩ := ha f (List.mem_cons_self _ _)
    subst hs
    exact Paired.delta s _ (ih (fun g hg => ha g (List.mem_cons_of_mem _ hg)))

theorem hTools_none_paired (ex : Exec) (blocks : List Block) :
    ∀ c b, Paired b → Paired ((hTools none ex blocks c).frames ++ b) := by
  induction blocks with
  | nil => intro c b hb; exact hb
  | cons blk rest ih =>
    intro c b hb
    cases blk with
    | text s => simpa only [hTools] using ih c b hb
    | toolUse id name inp =>
      simp only [hTools, interruptedAt_none, Bool.false_eq_true, if_false]
      exact Paired.pair id name inp _ _ _ (ih (c + 2) b hb)

theorem hLoop_none_paired (ex : Exec) (rounds : Nat → RRound) (fuel : Nat) :
    ∀ i c, Paired ((hLoop none ex rounds fuel i c).frames ++ [Frame.responseEnd]) := by
  induction fuel with
  | zero =>
    intro i c
    simp only [hLoop, interruptedAt_none, Bool.false_eq_true, if_false]
    exact Paired.delta _ _ (Paired.stop _ Paired.nil)
  | succ fuel ih =>
    intro i c
    simp only [hLoop, interruptedAt_none, Bool.false_eq_true, if_false,
      hStream_none_not_aborted, ite_self]
    by_cases h3 : hasToolUse (rounds i).final = true
    · simp only [h3, if_true, hTools_none_not_aborted, Bool.false_eq_true,
        if_false, List.append_assoc]
      apply paired_append_deltas _ (hStream_none_frames_delta _ _ _)
      exact hTools_none_paired ex (rounds i).final _ _ (ih (i + 1) _)
    · simp only [Bool.not_eq_true] at h3
      simp only [h3, Bool.false_eq_true, if_false]
      exact paired_append_deltas _ (hStream_none_frames_delta _ _ _)
        (Paired.stop _ Paired.nil)

theorem paired_get_adjacent {fs : List Frame} (hp : Paired fs) :
    ∀ k id nm inp, fs.get? k = some (Frame.toolUse id nm inp) →
      ∃ s o, fs.get? (k + 1) = some (Frame.toolResult id nm s o) := by
  induction hp with
  | nil => intro k id nm inp h; simp at h
  | delta s fs _ ih =>
    intro k id nm inp h
    cases k with
    | zero => simp at h
    | succ k => exact ih k id nm inp h
  | stop fs _ ih =>
    intro k id nm inp h
    cases k with
    | zero => simp at h
    | succ k => exact ih k id nm inp h
  | pair id2 nm2 inp2 s2 o2 fs _ ih =>
    intro k id nm inp h
    cases k with
    | zero =>
      simp only [List.get?] at h
      cases h
      exact ⟨s2, o2, rfl⟩
    | succ k =>
      cases k with
      | zero => simp at h
      | succ k => exact ih k id nm inp h

theorem paired_counts {fs : List Frame} (hp : Paired fs) :
    ∀ id, countToolResult id fs = countToolUse id fs := by
  induction hp with
  | nil => intro id; rfl
  | delta s fs _ ih => intro id; simpa only [countToolResult, countToolUse] using ih id
  | stop fs _ ih => intro id; simpa only [countToolResult, countToolUse] using ih id
  | pair id2 nm2 inp2 s2 o2 fs _ ih =>
    intro id
    simp only [countToolResult, countToolUse]
    rw [ih id]

/-- C2 amended: in an uninterrupted response, every tool_use frame in
the outbound sequence is immediately followed by its tool_result frame
with the same id and name (hence before the trailing response_end and
in production order), and per id the outbound tool_result frames are
exactly as many as the tool_use frames; when the session is
interrupted, the handler may break between relaying tool_use and
tool_result, so a tool whose execution began can still lose its
tool_result frame (see the counterexample). -/
theorem c2_amended (ex : Exec) (rounds : Nat → RRound) :
    (∀ k id nm inp, (handlerRun none ex rounds).1.get? k =
        some (Frame.toolUse id nm inp) →
      ∃ s o, (handlerRun none ex rounds).1.get? (k + 1) =
        some (Frame.toolResult id nm s o)) ∧
    (∀ id, countToolResult id (handlerRun none ex rounds).1 =
      countToolUse id (handlerRun none ex rounds).1) := by
  have hp : Paired (handlerRun none ex rounds).1 :=
    hLoop_none_paired ex rounds MAX_TOOL_ROUNDS 0 0
  exact ⟨fun k id nm inp h => paired_get_adjacent hp k id nm inp h,
         fun id => paired_counts hp id⟩

/-- Witness for C2 amended: in the uninterrupted run over the all-tool
oracle, the frame after the first tool_use is its tool_result. -/
theorem c2_witness :
    ∃ s o, (handlerRun none ex0 r0).1.get? 1 =
      some (Frame.toolResult "t1" "bash" s o) :=
  (c2_amended ex0 r0).1 0 "t1" "bash" "ls" rfl

/-- Counterexample to C2 as stated: with the interrupt flag first
observable at check 2 (after the handler relayed the tool_use frame
and the tool executed, the execution log records t1, and the only
check before execution, number 1, read false, so the session was not
interrupted before execution began), the handler breaks before
relaying the tool_result: the outbound sequence carries the tool_use
frame for t1 and response_end but no tool_result frame for t1. -/
theorem c2_counterexample :
    (handlerRun (some 2) ex0 r0).1 =
      [Frame.toolUse "t1" "bash" "ls", Frame.responseEnd] ∧
    (handlerRun (some 2) ex0 r0).2 = ["t1"] ∧
    interruptedAt (some 2) 1 = false ∧
    countToolResult "t1" (handlerRun (some 2) ex0 r0).1 = 0 :=
  ⟨rfl, rfl, rfl, rfl⟩

/-! ## C7: the speak-tag extractor -/

theorem findSub_le {pat l : List Char} :
    ∀ {i : Nat}, findSub pat l = some i → pat ≠ [] →
      i + pat.length ≤ l.length := by
  induction l with
  | nil => intro i h _; cases h
  | cons c rest ih =>
    intro i h hp
    simp only [findSub] at h
    by_cases hpre : pat.isPrefixOf (c :: rest) = true
    · rw [if_pos hpre] at h
      cases h
      have hpp := List.isPrefixOf_iff_prefix.mp hpre
      have := hpp.length_le
      omega
    · rw [if_neg hpre] at h
      cases h2 : findSub pat rest with
      | none => rw [h2] at h; cases h
      | some i0 =>
        rw [h2] at h
        injection h with h
        subst h
        have := ih h2 hp
        simp only [List.length_cons]
        omega

theorem findSpeakMatch_bounds {buf inner : List Char} {e : Nat}
    (h : findSpeakMatch buf = some (inner, e)) : 1 ≤ e ∧ e ≤ buf.length := by
  unfold findSpeakMatch at h
  split at h
  · cases h
  · rename_i i h1
    split at h
    · cases h
    · rename_i j h2
      simp only [Option.some.injEq, Prod.mk.injEq] at h
      obtain ⟨_, he⟩ := h
      have b1 := findSub_le h1 (by decide)
      have b2 := findSub_le h2 (by decide)
      rw [List.length_drop] at b2
      have ho : openTag.length = 7 := rfl
      have hc : closeTag.length = 8 := rfl
      rw [ho] at b1 b2 he
      rw [hc] at b2 he
      omega

theorem extractSpeakF_spec (fuel : Nat) :
    ∀ buf : List Char, buf.length ≤ fuel →
      findSpeakMatch (extractSpeakF fuel buf).2 = none ∧
      (∃ k, (extractSpeakF fuel buf).2 = buf.drop k) ∧
      (∀ it ∈ (extractSpeakF fuel buf).1, it ≠ [] ∧ ∃ inner, it = trimChars inner) := by
  induction fuel with
  | zero =>
    intro buf h
    have hb : buf = [] := List.eq_nil_of_length_eq_zero (Nat.le_zero.mp h)
    subst hb
    exact ⟨rfl, ⟨0, rfl⟩, by simp [extractSpeakF]⟩
  | succ fuel ih =>
    intro buf h
    cases hm : findSpeakMatch buf with
    | none =>
      refine ⟨?_, ⟨0, ?_⟩, ?_⟩
      · simp only [extractSpeakF, hm]
      · simp only [extractSpeakF, hm]
        rw [List.drop_zero]
      · intro it hit
        simp only [extractSpeakF, hm] at hit
        simp at hit
    | some p =>
      obtain ⟨inner, e⟩ := p
      obtain ⟨he1, he2⟩ := findSpeakMatch_bounds hm
      obtain ⟨hrec1, ⟨k, hrec2⟩, hrec3⟩ :=
        ih (buf.drop e) (by rw [List.length_drop]; omega)
      simp only [extractSpeakF, hm]
      refine ⟨hrec1, ⟨e + k, ?_⟩, ?_⟩
      · rw [hrec2, List.drop_drop, Nat.add_comm]
      · intro it hit
        by_cases ht : trimChars inner = []
        · rw [if_pos ht] at hit
          exact hrec3 it hit
        · rw [if_neg ht] at hit
          rcases List.mem_cons.mp hit with hcase | hcase
        
          · subst hcase
            exact ⟨ht, inner, rfl⟩
          · exact hrec3 it hcase

/-- Claim C7: per relayed text_delta, the displayed text is the raw
delta with the literal open and close speak tags removed while the raw
delta itself is appended to the growing buffer; the non-greedy dot-all
speak pattern is then repeatedly matched: each matched inner text is
trimmed and enqueued when non-empty (the first match inner text, once
trimmed and non-empty, heads the enqueued list), the buffer advances
past the closing tag so that what remains is a suffix of buffer plus
delta, and after processing no complete speak block remains buffered
(unmatched partial tags stay for the next delta). -/
theorem c7_speak_extractor (buf delta : List Char) :
    (processDelta buf delta).1 = stripSpeakTags delta ∧
    findSpeakMatch (processDelta buf delta).2.2 = none ∧
    (∃ k, (processDelta buf delta).2.2 = (buf ++ delta).drop k) ∧
    (∀ it ∈ (processDelta buf delta).2.1,
      it ≠ [] ∧ ∃ inner, it = trimChars inner) ∧
    (∀ inner e, findSpeakMatch (buf ++ delta) = some (inner, e) →
      trimChars inner ≠ [] →
      (processDelta buf delta).2.1.head? = some (trimChars inner)) := by
  obtain ⟨h1, h2, h3⟩ :=
    extractSpeakF_spec (buf ++ delta).length (buf ++ delta) (Nat.le_refl _)
  refine ⟨rfl, h1, h2, h3, ?_⟩
  intro inner e hm ht
  show (extractSpeakF (buf ++ delta).length (buf ++ delta)).1.head? = _
  cases hl : (buf ++ delta).length with
  | zero =>
    exfalso
    have : buf ++ delta = [] := List.eq_nil_of_length_eq_zero hl
    rw [this] at hm
    cases hm
  | succ n =>
    simp [extractSpeakF, hm, ht]

/-- Witness for C7: the buffer held a partial prefix, the delta closes
one speak block and opens another partial tag; the trimmed inner text
heads the enqueued items. -/
theorem c7_witness :
    (processDelta "ab<sp".data "eak> hi </speak><spe".data).2.1.head? =
      some (trimChars " hi ".data) :=
  (c7_speak_extractor "ab<sp".data "eak> hi </speak><spe".data).2.2.2.2
    " hi ".data 21 rfl (by decide)
